import Mathlib

/-!
Verification of the hyperloglog repository (HyperLogLog / HyperLogLog++
cardinality estimators) against its natural-language specification.

The Go sources are embedded shallowly:

* machine integers (uint8/uint32/uint64) become `Nat`, with an explicit
  `% 2 ^ w` exactly where a Go shift can overflow the word;
* float64 values become members of a linear ordered field (`ℚ` or `ℝ`),
  so that float arithmetic is modelled by exact arithmetic;
* the mutable methods become pure state-passing functions;
* Go slice indexing becomes `List.getD _ _ 0` (Go would panic out of
  range; all statements proved below stay within range).

The bit primitives (`eb64`, `eb32`, `clz64`, `clz32`), the estimate
kernel (`calculateEstimate`, `countZeros`, `linearCounting`) and the
empirical tables are used by the sources but their defining file is not
part of the source snapshot, so they are modelled from the
specification, as marked in their doc comments.
-/

/-- Modelled from the spec: number of binary digits of `x`, computed with
explicit fuel so that the kernel can evaluate it.  For `x < 2 ^ fuel` this
is the exact bit length. -/
def bitsLen (fuel x : Nat) : Nat :=
  match fuel with
  | 0 => 0
  | f + 1 => if x = 0 then 0 else bitsLen f (x / 2) + 1

/-- Modelled from the spec: `clz64(x)` returns the number of leading zero
bits of a 64-bit word; `clz64(0) = 64`. -/
def clz64 (x : Nat) : Nat := 64 - bitsLen 64 x

/-- Modelled from the spec: `clz32(x)` returns the number of leading zero
bits of a 32-bit word; `clz32(0) = 32`. -/
def clz32 (x : Nat) : Nat := 32 - bitsLen 32 x

/-- Modelled from the spec: `extract_bits_u64(x, hi, lo)` returns the bits
of `x` in positions `[lo, hi)`, right-aligned:
`(x >> lo) & ((1 << (hi - lo)) - 1)`.  For `hi = 64`, `lo = 0` the Go
expression wraps to an all-ones mask, and `(1 <<< 64) - 1` is the same
all-ones value here. -/
def eb64 (x hi lo : Nat) : Nat := (x >>> lo) &&& ((1 <<< (hi - lo)) - 1)

/-- Modelled from the spec: `extract_bits_u32`, the 32-bit analogue of
`eb64`. -/
def eb32 (x hi lo : Nat) : Nat := (x >>> lo) &&& ((1 <<< (hi - lo)) - 1)

/-- The `threshold` vector from `src/hllpp.go` (the `hyperloglog`
package's copy is not in the source snapshot; the spec says both use the
same length-15 vector). -/
def threshold : List Nat :=
  [10, 20, 40, 80, 220, 400, 900, 1800, 3100,
   6500, 11500, 20000, 50000, 120000, 350000]

namespace HyperLogLog64

/-- The `HyperLogLog64` struct of `src/unnamed/part_000` (equally of
`src/hyperloglog64.go`): register array `reg`, register count `m`,
precision `p`. -/
structure State where
  reg : List Nat
  m : Nat
  p : Nat
deriving DecidableEq, Repr

/-- `HyperLogLog64.AddUint64` from `src/unnamed/part_000`: the Go shift
`x << h.p` is on uint64, hence the `% 2 ^ 64`. -/
def AddUint64 (h : State) (x : Nat) : State :=
  let i := eb64 x 64 (64 - h.p)
  let w := ((x <<< h.p) % 2 ^ 64) ||| (1 <<< (h.p - 1))
  let zeroBits := clz64 w + 1
  if zeroBits > h.reg.getD i 0 then { h with reg := h.reg.set i zeroBits } else h

/-- `HyperLogLog64.SeenUint64` from `src/unnamed/part_000`.  It only reads
the state (the embedding returns `Bool` and no state, which is the
shallow form of "no mutation"). -/
def SeenUint64 (h : State) (x : Nat) : Bool :=
  let i := eb64 x 64 (64 - h.p)
  let w := ((x <<< h.p) % 2 ^ 64) ||| (1 <<< (h.p - 1))
  let zeroBits := clz64 w + 1
  zeroBits ≤ h.reg.getD i 0

/-- The register loop of `HyperLogLog64.Merge`:
`for i, v := range other.reg { if v > h.reg[i] { h.reg[i] = v } }`,
with `i` the position of `v` in `other.reg`. -/
def mergeLoop (r : List Nat) (ov : List Nat) (i : Nat) : List Nat :=
  match ov with
  | [] => r
  | v :: t => mergeLoop (if v > r.getD i 0 then r.set i v else r) t (i + 1)

/-- `HyperLogLog64.Merge` from `src/unnamed/part_000` (identical in
`src/hyperloglog64.go`).  The `Bool` component is `true` exactly when the
Go method returns the precision-mismatch error, in which case the
returned state is the untouched receiver. -/
def Merge (h other : State) : State × Bool :=
  if h.p ≠ other.p then (h, true)
  else ({ h with reg := mergeLoop h.reg other.reg 0 }, false)

end HyperLogLog64

/-- The first index whose table entry is not below `est`; this is the
exit index of the Go loop
`for i = 0; i < len(estTable) && estTable[i] < est; i++`. -/
def firstGe {α : Type} [LinearOrder α] (est : α) : List α → Nat
  | [] => 0
  | a :: t => if a < est then firstGe est t + 1 else 0

/-- Modelled from the spec: `count_zeros(registers)` is the number of
registers equal to zero. -/
def countZeros (reg : List Nat) : Nat := reg.count 0

/-- Modelled from the spec: the HyperLogLog normalization constant
`α_m` (`0.673` for m=16, `0.697` for m=32, `0.709` for m=64 and
`0.7213 / (1 + 1.079/m)` beyond). -/
noncomputable def alphaM (m : Nat) : ℝ :=
  if m = 16 then 0.673
  else if m = 32 then 0.697
  else if m = 64 then 0.709
  else 0.7213 / (1 + 1.079 / (m : ℝ))

/-- Modelled from the spec: `raw_estimate(registers)` computes
`α_m · m² / Σ 2^(-reg[i])`, with float64 arithmetic modelled over `ℝ`. -/
noncomputable def calculateEstimate (reg : List Nat) : ℝ :=
  alphaM reg.length * (reg.length : ℝ) ^ 2 /
    (reg.map (fun r => ((2 : ℝ) ^ r)⁻¹)).sum

/-- Modelled from the spec: `linear_counting(m, v) = m · ln(m / v)`. -/
noncomputable def linearCounting (m v : Nat) : ℝ :=
  (m : ℝ) * Real.log ((m : ℝ) / (v : ℝ))

/-- `two32` from the sources: `2^32` as a float. -/
def two32 : ℝ := 4294967296

namespace HyperLogLog64

/-- `estimateBias` from `src/unnamed/part_000`, generic over the ordered
field modelling float64.  The empirical tables (Google's HLL++ appendix
data) are not in the source snapshot, so they are parameters. -/
def estimateBias {α : Type} [LinearOrderedField α]
    (rawEstimateData biasData : List (List α)) (p : Nat) (est : α) : α :=
  let estTable := rawEstimateData.getD (p - 4) []
  let biasTable := biasData.getD (p - 4) []
  if estTable.getD 0 0 > est then biasTable.getD 0 0
  else if estTable.getD (estTable.length - 1) 0 < est then
    biasTable.getD (biasTable.length - 1) 0
  else
    let i := firstGe est estTable
    let c := (est - estTable.getD (i - 1) 0) /
      (estTable.getD i 0 - estTable.getD (i - 1) 0)
    biasTable.getD (i - 1) 0 * (1 - c) + biasTable.getD i 0 * c

/-- `Count` from `src/unnamed/part_000`.  The `uint64` conversion of the
(nonnegative, in-range) float results is modelled as the integer floor. -/
noncomputable def Count (rawEstimateData biasData : List (List ℝ)) (h : State) : ℤ :=
  let est := calculateEstimate h.reg
  let est2 := if est ≤ (h.m : ℝ) * 5.0 then
    est - estimateBias rawEstimateData biasData h.p est else est
  let v := countZeros h.reg
  if v ≠ 0 then
    if linearCounting h.m v ≤ ((threshold.getD (h.p - 4) 0 : Nat) : ℝ) then
      ⌊linearCounting h.m v⌋
    else ⌊est2⌋
  else ⌊est2⌋

/-- `Count` from `src/hyperloglog64.go`.  This is the older classic-HLL
variant of the method: the source snapshot carries two files that both
define `HyperLogLog64` and its methods in one package, and only the
`part_000` version (whose `SeenUint64` the test suite calls) can be
built together with the tests; this one is kept for comparison. -/
noncomputable def CountLegacy (h : State) : ℤ :=
  let est := calculateEstimate h.reg
  if est ≤ (h.m : ℝ) * 2.5 then
    if countZeros h.reg ≠ 0 then ⌊linearCounting h.m (countZeros h.reg)⌋
    else ⌊est⌋
  else if est < two32 / 30 then ⌊est⌋
  else ⌊-two32 * Real.log (1 - est / two32)⌋

end HyperLogLog64

/-- `Count` exactly as claim C2 words it: raw estimate, conditional bias
subtraction at `est ≤ 5·m`, then the linear-counting branch gated on
`v > 0` and the threshold, else the floor of the corrected estimate. -/
noncomputable def specCountC2 (rawEstimateData biasData : List (List ℝ))
    (h : HyperLogLog64.State) : ℤ :=
  let est := calculateEstimate h.reg
  let est2 := if est ≤ 5 * (h.m : ℝ) then
    est - HyperLogLog64.estimateBias rawEstimateData biasData h.p est else est
  let v := countZeros h.reg
  if 0 < v ∧ linearCounting h.m v ≤ ((threshold.getD (h.p - 4) 0 : Nat) : ℝ) then
    ⌊linearCounting h.m v⌋
  else ⌊est2⌋

namespace hyperLogLogPP

/-- `pPrime` from `src/hllpp.go`. -/
def pPrime : Nat := 25

/-- `mPrime` from `src/hllpp.go`. -/
def mPrime : Nat := 1 <<< (pPrime - 1)

/-- The `hyperLogLogPP` struct of `src/hllpp.go`.  `tmp_set` (a Go map
used as a set) is embedded as a duplicate-free list; `sparse_list` is the
plain `[]uint32` slice this version of the code uses. -/
structure State where
  reg : List Nat
  p : Nat
  m : Nat
  sparse : Bool
  tmp_set : List Nat
  sparse_list : List Nat
deriving DecidableEq, Repr

/-- `encodeHash` from `src/hllpp.go`.  All words are small enough that no
Go conversion truncates: `idx < 2 ^ 32`, and `zeros ≤ 65` so the uint8
value `zeros << 1 ≤ 130` does not wrap. -/
def encodeHash (p x : Nat) : Nat :=
  let idx := (eb64 x 64 (64 - pPrime)) <<< 7
  if eb64 x (64 - p) (64 - pPrime) = 0 then
    let zeros := clz64 ((eb64 x (64 - pPrime) 0) <<< pPrime) + 1
    idx ||| (zeros <<< 1) ||| 1
  else
    idx ||| (1 <<< 6)

/-- `getIndex` from `src/hllpp.go`. -/
def getIndex (p k : Nat) : Nat := eb32 k (p + 7) 7

/-- `decodeHash` from `src/hllpp.go`; the Go shift `k << (pPrime - h.p)`
is on uint32, hence the `% 2 ^ 32`. -/
def decodeHash (p k : Nat) : Nat × Nat :=
  (getIndex p k,
   if k &&& 1 = 1 then eb32 k 7 1 + pPrime - p
   else clz32 ((k <<< (pPrime - p)) % 2 ^ 32) + 1)

/-- Insertion into the `tmp_set` Go map-set: a no-op on a present key. -/
def setAdd (s : List Nat) (k : Nat) : List Nat := if k ∈ s then s else s ++ [k]

def sortInsert (k : Nat) : List Nat → List Nat
  | [] => [k]
  | a :: t => if k ≤ a then k :: a :: t else a :: sortInsert k t

/-- Modelled from the spec: `merge` first sorts the keys of `tmp_set`
into a vector (`sort.Sort(keys)`; the `sortableSlice` helper is not in
the source snapshot, the spec says the keys are sorted). -/
def sortKeys : List Nat → List Nat
  | [] => []
  | a :: t => sortInsert a (sortKeys t)

/-- Modelled from the spec: the `insert(slice, i, v)` helper (not in the
source snapshot) places `v` at index `i`, shifting the tail right. -/
def insertAt (l : List Nat) (n k : Nat) : List Nat := l.take n ++ k :: l.drop n

/-- The inner loop of `merge`:
`for ; i < len(h.sparse_list) && key_less(h.sparse_list[i], k); i++`,
counting how far `i` advances from the current position. -/
def skipLess (k : Nat) : List Nat → Nat
  | [] => 0
  | a :: t => if a &&& (mPrime - 1) < k &&& (mPrime - 1) then skipLess k t + 1 else 0

/-- One iteration of the key loop in `merge` from `src/hllpp.go`,
carrying the list and the persistent index `i`. -/
def mergeStep (st : List Nat × Nat) (k : Nat) : List Nat × Nat :=
  let l := st.1
  let i := st.2 + skipLess k (l.drop st.2)
  if l.length ≤ i then (l ++ [k], i)
  else
    let item := l.getD i 0
    if k > item then
      if k &&& (mPrime - 1) = item &&& (mPrime - 1) then (l.set i k, i + 1)
      else (insertAt l (i + 1) k, i + 1)
    else if k &&& (mPrime - 1) < item &&& (mPrime - 1) then (insertAt l i k, i + 1)
    else (l, i + 1)

/-- The key loop of `merge` from `src/hllpp.go` applied to the sorted
keys. -/
def mergeList (l keys : List Nat) : List Nat := (keys.foldl mergeStep (l, 0)).1

/-- `merge` from `src/hllpp.go`: fold the sorted `tmp_set` into
`sparse_list`, then clear `tmp_set`. -/
def merge (h : State) : State :=
  { h with sparse_list := mergeList h.sparse_list (sortKeys h.tmp_set),
           tmp_set := [] }

/-- The register array built by `toNormal` from `src/hllpp.go`: decode
every stored encoded hash and keep the register maxima. -/
def toNormalReg (p : Nat) (l : List Nat) : List Nat :=
  l.foldl (fun reg k =>
    if reg.getD (decodeHash p k).1 0 < (decodeHash p k).2 then
      reg.set (decodeHash p k).1 (decodeHash p k).2
    else reg) (List.replicate (1 <<< p) 0)

/-- `toNormal` from `src/hllpp.go`. -/
def toNormal (h : State) : State :=
  { h with reg := toNormalReg h.p h.sparse_list, sparse := false,
           tmp_set := [], sparse_list := [] }

/-- The dense branch of `Add` from `src/hllpp.go` (lines 135-143),
identical to `HyperLogLog64.AddUint64`. -/
def denseAdd (p : Nat) (reg : List Nat) (x : Nat) : List Nat :=
  let i := eb64 x 64 (64 - p)
  let zeroBits := clz64 (((x <<< p) % 2 ^ 64) ||| (1 <<< (p - 1))) + 1
  if zeroBits > reg.getD i 0 then reg.set i zeroBits else reg

/-- Dense registers obtained by adding a list of hashes to a fresh
register array, via the dense branch of `Add`. -/
def denseAddReg (p : Nat) (xs : List Nat) : List Nat :=
  xs.foldl (denseAdd p) (List.replicate (1 <<< p) 0)

/-- `Add` from `src/hllpp.go`.  The two Booleans record whether the call
invoked `merge` and `toNormal` respectively (the control flow is
otherwise exactly the source's). -/
def Add (h : State) (x : Nat) : State × Bool × Bool :=
  if h.sparse then
    let t := setAdd h.tmp_set (encodeHash h.p x)
    if t.length * 72 > h.m then
      let hm := merge { h with tmp_set := t }
      if hm.sparse_list.length * 6 > h.m then (toNormal hm, true, true)
      else (hm, true, false)
    else ({ h with tmp_set := t }, false, false)
  else
    ({ h with reg := denseAdd h.p h.reg x }, false, false)

/-- `estimateBias` from `src/hllpp.go` (note: unlike the `HyperLogLog64`
variant, it returns `estTable − biasTable` values at the boundaries and
weights the interpolation as `b1·c + b2·(1−c)`). -/
def estimateBias {α : Type} [LinearOrderedField α]
    (rawEstimateData biasData : List (List α)) (p : Nat) (est : α) : α :=
  let estTable := rawEstimateData.getD (p - 4) []
  let biasTable := biasData.getD (p - 4) []
  if estTable.getD 0 0 > est then estTable.getD 0 0 - biasTable.getD 0 0
  else if estTable.getD (estTable.length - 1) 0 < est then
    estTable.getD (estTable.length - 1) 0 - biasTable.getD (biasTable.length - 1) 0
  else
    let i := firstGe est estTable
    let c := (est - estTable.getD (i - 1) 0) /
      (estTable.getD i 0 - estTable.getD (i - 1) 0)
    biasTable.getD (i - 1) 0 * c + biasTable.getD i 0 * (1 - c)

end hyperLogLogPP

/-- The decode function exactly as claim C3 states it (the spec's
`decode_hash`): index `extract_bits_u32(k, 32, 32-p)` when flagged and
`extract_bits_u32(k, p'+1, p'-p+1)` otherwise; rank
`extract_bits_u32(k, 7, 1) + (p' - p)` when flagged and
`clz32(k << (32 - p' + p - 1)) + 1` otherwise. -/
def c3ClaimedDecode (p k : Nat) : Nat × Nat :=
  (if k &&& 1 = 1 then eb32 k 32 (32 - p)
   else eb32 k (hyperLogLogPP.pPrime + 1) (hyperLogLogPP.pPrime - p + 1),
   if k &&& 1 = 1 then eb32 k 7 1 + (hyperLogLogPP.pPrime - p)
   else clz32 ((k <<< (32 - hyperLogLogPP.pPrime + p - 1)) % 2 ^ 32) + 1)

/-- Decidable strict increase of a list of encoded hashes, for stating
the claimed `sparse_list` invariant. -/
def strictlyIncr : List Nat → Bool
  | [] => true
  | [_] => true
  | a :: b :: t => a < b && strictlyIncr (b :: t)

/-- The encode function exactly as claim C4 states it (the spec's
`encode_hash`): the flagged encoding
`(i' << 7) | ((zeros & 0x3F) << 1) | 1` with
`zeros = clz64((extract_bits_u64(x, 64-p', 0) << p') | (1 << (p'-1))) + 1`
when the extra precision bits vanish, and the unflagged `i' << 1`
otherwise. -/
def c4ClaimedEncode (p x : Nat) : Nat :=
  let ip := eb64 x 64 (64 - hyperLogLogPP.pPrime)
  if eb64 x (64 - p) (64 - hyperLogLogPP.pPrime) = 0 then
    let zeros := clz64 (((eb64 x (64 - hyperLogLogPP.pPrime) 0) <<< hyperLogLogPP.pPrime) |||
      (1 <<< (hyperLogLogPP.pPrime - 1))) + 1
    (ip <<< 7) ||| ((zeros &&& 0x3F) <<< 1) ||| 1
  else
    ip <<< 1

/-- `eb64` written with division and remainder. -/
lemma eb64_div_mod (x hi lo : Nat) : eb64 x hi lo = (x / 2 ^ lo) % 2 ^ (hi - lo) := by
  rw [eb64, Nat.shiftLeft_eq, one_mul, Nat.and_pow_two_sub_one_eq_mod,
    Nat.shiftRight_eq_div_pow]

/-- `eb32` written with division and remainder. -/
lemma eb32_div_mod (x hi lo : Nat) : eb32 x hi lo = (x / 2 ^ lo) % 2 ^ (hi - lo) := by
  rw [eb32, Nat.shiftLeft_eq, one_mul, Nat.and_pow_two_sub_one_eq_mod,
    Nat.shiftRight_eq_div_pow]

lemma bitsLen_lt_two_pow {fuel x : Nat} (h : x < 2 ^ fuel) : x < 2 ^ bitsLen fuel x := by
  induction fuel generalizing x with
  | zero => exact h
  | succ f ih =>
    rw [bitsLen]
    split
    · simp [*]
    · have hx : x / 2 < 2 ^ f := by
        rw [Nat.div_lt_iff_lt_mul (by norm_num)]
        calc x < 2 ^ (f + 1) := h
        _ = 2 ^ f * 2 := by ring
      have := ih hx
      have : x / 2 * 2 < 2 ^ (bitsLen f (x / 2) + 1) := by
        rw [pow_succ]
        omega
      have hdm := Nat.div_add_mod x 2
      have : x % 2 < 2 := Nat.mod_lt _ (by norm_num)
      omega

/-- Reading an index a `List.set` just wrote returns the written value. -/
lemma getD_set_self (l : List Nat) (i a : Nat) (h : i < l.length) :
    (l.set i a).getD i 0 = a := by
  simp [List.getD, List.getElem?_set_self, h]

/-- `List.set` leaves every other index unchanged. -/
lemma getD_set_ne (l : List Nat) (a : Nat) {i j : Nat} (h : i ≠ j) :
    (l.set i a).getD j 0 = l.getD j 0 := by
  simp [List.getD, List.getElem?_set_ne h]

lemma mergeLoop_length (ov : List Nat) : ∀ (r : List Nat) (i : Nat),
    (HyperLogLog64.mergeLoop r ov i).length = r.length := by
  induction ov with
  | nil => intro r i; rfl
  | cons v t ih =>
    intro r i
    rw [HyperLogLog64.mergeLoop, ih]
    split <;> simp

/-- The merge loop writes each register of the receiver to the max of the
two sides, for indices covered by both lists, and leaves everything else
alone. -/
lemma mergeLoop_getD (ov : List Nat) : ∀ (r : List Nat) (i j : Nat),
    (HyperLogLog64.mergeLoop r ov i).getD j 0 =
      if i ≤ j ∧ j < i + ov.length ∧ j < r.length then
        max (r.getD j 0) (ov.getD (j - i) 0)
      else r.getD j 0 := by
  induction ov with
  | nil => intro r i j; simp [HyperLogLog64.mergeLoop]
  | cons v t ih =>
    intro r i j
    rw [HyperLogLog64.mergeLoop, ih]
    have hlen2 : (if v > r.getD i 0 then r.set i v else r).length = r.length := by
      split <;> simp
    rw [hlen2]
    by_cases hji : j = i
    · subst hji
      have h1 : ¬ (j + 1 ≤ j ∧ j < j + 1 + t.length ∧ j < r.length) := by omega
      rw [if_neg h1]
      by_cases hlen : j < r.length
      · have h2 : j ≤ j ∧ j < j + (v :: t).length ∧ j < r.length :=
          ⟨le_refl j, by simp, hlen⟩
        rw [if_pos h2]
        simp only [Nat.sub_self, List.getD_cons_zero]
        split
        · next hgt =>
          rw [getD_set_self _ _ _ hlen, Nat.max_eq_right (Nat.le_of_lt hgt)]
        · next hle =>
          rw [Nat.max_eq_left (by omega)]
      · have h2 : ¬ (j ≤ j ∧ j < j + (v :: t).length ∧ j < r.length) := by
          intro hc; exact hlen hc.2.2
        rw [if_neg h2]
        split
        · rw [List.set_eq_of_length_le (by omega)]
        · rfl
    · have hset : (if v > r.getD i 0 then r.set i v else r).getD j 0 = r.getD j 0 := by
        split
        · exact getD_set_ne _ _ (fun hc => hji (hc.symm))
        · rfl
      rw [hset]
      by_cases hc : i + 1 ≤ j ∧ j < i + 1 + t.length ∧ j < r.length
      · have hc2 : i ≤ j ∧ j < i + (v :: t).length ∧ j < r.length :=
          ⟨by omega, by simp only [List.length_cons]; omega, hc.2.2⟩
        rw [if_pos hc, if_pos hc2]
        have h3 : (v :: t).getD (j - i) 0 = t.getD (j - (i + 1)) 0 := by
          have hji2 : j - i = (j - (i + 1)) + 1 := by omega
          rw [hji2, List.getD_cons_succ]
        rw [h3]
      · have hc2 : ¬ (i ≤ j ∧ j < i + (v :: t).length ∧ j < r.length) := by
          intro hcon
          refine hc ⟨by omega, ?_, hcon.2.2⟩
          have := hcon.2.1
          simp only [List.length_cons] at this
          omega
        rw [if_neg hc, if_neg hc2]

/-- C8: `HyperLogLog64.Merge` fails exactly when the two precisions
differ; a failing merge leaves the receiver completely unchanged; a
succeeding merge keeps `p` and `m` and replaces every register by the
maximum of the two sides. -/
theorem c8_merge_mismatch_and_max (h o : HyperLogLog64.State) :
    ((HyperLogLog64.Merge h o).2 = true ↔ h.p ≠ o.p) ∧
    ((HyperLogLog64.Merge h o).2 = true → (HyperLogLog64.Merge h o).1 = h) ∧
    (h.p = o.p →
      (HyperLogLog64.Merge h o).1.p = h.p ∧
      (HyperLogLog64.Merge h o).1.m = h.m ∧
      (h.reg.length = o.reg.length → ∀ j, j < h.reg.length →
        (HyperLogLog64.Merge h o).1.reg.getD j 0 =
          max (h.reg.getD j 0) (o.reg.getD j 0))) := by
  unfold HyperLogLog64.Merge
  by_cases hp : h.p = o.p
  · rw [if_neg (by simp [hp])]
    refine ⟨by simp [hp], by simp, fun _ => ⟨rfl, rfl, fun hlen j hj => ?_⟩⟩
    rw [mergeLoop_getD, if_pos ⟨Nat.zero_le j, by omega, hj⟩, Nat.sub_zero]
  · rw [if_pos hp]
    exact ⟨by simp [hp], fun _ => rfl, fun hc => absurd hc hp⟩

/-- Witness for C8 at a concrete pair of equal-precision states. -/
theorem c8_witness :
    (HyperLogLog64.Merge ⟨[5, 0, 7], 8, 4⟩ ⟨[1, 9, 2], 8, 4⟩).1.reg.getD 1 0 = 9 := by
  have hall := (c8_merge_mismatch_and_max ⟨[5, 0, 7], 8, 4⟩ ⟨[1, 9, 2], 8, 4⟩).2.2 rfl
  rw [hall.2.2 rfl 1 (by decide)]
  decide

/-- C9: immediately after `AddUint64 x`, `SeenUint64 x` returns `true`
on a well-formed estimator (register array of length `2 ^ p`); the
absence of mutation in `SeenUint64` is expressed by its embedding, which
returns only a `Bool`. -/
theorem c9_seen_after_add (h : HyperLogLog64.State) (x : Nat)
    (hreg : h.reg.length = 2 ^ h.p) :
    HyperLogLog64.SeenUint64 (HyperLogLog64.AddUint64 h x) x = true := by
  simp only [HyperLogLog64.AddUint64, HyperLogLog64.SeenUint64, decide_eq_true_eq]
  have hile : eb64 x 64 (64 - h.p) ≤ (1 <<< (64 - (64 - h.p))) - 1 := Nat.and_le_right
  have hlt : eb64 x 64 (64 - h.p) < h.reg.length := by
    rw [hreg, Nat.shiftLeft_eq, one_mul] at *
    have h3 : (2 : Nat) ^ (64 - (64 - h.p)) ≤ 2 ^ h.p :=
      Nat.pow_le_pow_right (by norm_num) (by omega)
    have h4 : (0 : Nat) < 2 ^ (64 - (64 - h.p)) := Nat.pos_pow_of_pos _ (by norm_num)
    omega
  split
  · next hgt =>
    rw [getD_set_self _ _ _ hlt]
  · next hle =>
    omega

/-- Witness for C9 at a concrete state and hash. -/
theorem c9_witness :
    HyperLogLog64.SeenUint64
      (HyperLogLog64.AddUint64 ⟨List.replicate 16 0, 16, 4⟩ 123) 123 = true :=
  c9_seen_after_add ⟨List.replicate 16 0, 16, 4⟩ 123 (by decide)

/-- C10: `AddUint64 x` can change only the register at index
`extract_bits_u64(x, 64, 64-p)`; every other register and the fields `p`
and `m` are untouched. -/
theorem c10_add_frame (h : HyperLogLog64.State) (x j : Nat)
    (hj : j ≠ eb64 x 64 (64 - h.p)) :
    (HyperLogLog64.AddUint64 h x).reg.getD j 0 = h.reg.getD j 0 ∧
    (HyperLogLog64.AddUint64 h x).p = h.p ∧
    (HyperLogLog64.AddUint64 h x).m = h.m := by
  simp only [HyperLogLog64.AddUint64]
  split
  · exact ⟨getD_set_ne _ _ (fun hc => hj hc.symm), rfl, rfl⟩
  · exact ⟨rfl, rfl, rfl⟩

/-- Witness for C10 at a concrete state, hash and untouched index. -/
theorem c10_witness :
    (HyperLogLog64.AddUint64 ⟨[0, 0, 0, 0], 4, 2⟩ 0).reg.getD 1 0 = 0 := by
  rw [(c10_add_frame ⟨[0, 0, 0, 0], 4, 2⟩ 0 1 (by decide)).1]
  decide

/-- C1: the claim is that promoting the sparse representation reproduces
the dense registers; the code refutes it.  At `p = 4`, `x = 0` the sparse
round trip `decodeHash (encodeHash 0)` yields register 1 with rank 22
(the missing `| 1 << (pPrime-1)` term makes `zeros = 65`, whose flagged
byte spills into the index field), while the dense add path puts rank 61
into register 0, so `toNormal` and direct dense adds disagree. -/
theorem c1_sparse_dense_divergence :
    hyperLogLogPP.decodeHash 4 (hyperLogLogPP.encodeHash 4 0) = (1, 22) ∧
    (eb64 0 64 (64 - 4), clz64 (((0 <<< 4) % 2 ^ 64) ||| (1 <<< (4 - 1))) + 1) = (0, 61) ∧
    hyperLogLogPP.toNormalReg 4 [hyperLogLogPP.encodeHash 4 0] ≠
      hyperLogLogPP.denseAddReg 4 [0] := by
  decide

/-- C3 fails on the code: at `p = 4` the flagged hash `2 ^ 31 + 1`
decodes to index 0 (the code always reads the seven bits above the flag
byte, i.e. the low `p` bits of the stored prefix), while the claim's
formula gives index 8; the unflagged hash `2 ^ 24 + 64` differs in both
index and rank. -/
theorem c3_counterexample :
    hyperLogLogPP.decodeHash 4 2147483649 ≠ c3ClaimedDecode 4 2147483649 ∧
    hyperLogLogPP.decodeHash 4 16777280 ≠ c3ClaimedDecode 4 16777280 := by
  decide

/-- C3 (amended): for both shapes `decodeHash` reads the index from bits
7..p+7, i.e. `(k / 2^7) mod 2^p`; the flagged rank is
`(k / 2) mod 2^6 + (p' - p)` as claimed, but the unflagged rank is
`clz32(k << (p' - p)) + 1`, not `clz32(k << (32 - p' + p - 1)) + 1`. -/
theorem c3_decode_amended (p k : Nat) (hp4 : 4 ≤ p) (hp : p ≤ 18) :
    hyperLogLogPP.decodeHash p k =
      ((k / 2 ^ 7) % 2 ^ p,
       if k % 2 = 1 then (k / 2) % 2 ^ 6 + (25 - p)
       else clz32 ((k * 2 ^ (25 - p)) % 2 ^ 32) + 1) := by
  unfold hyperLogLogPP.decodeHash hyperLogLogPP.getIndex hyperLogLogPP.pPrime
  rw [Nat.and_one_is_mod]
  congr 1
  · rw [eb32_div_mod]
    congr 1
  · rw [eb32_div_mod, Nat.shiftLeft_eq]
    split
    · norm_num
      omega
    · rfl

/-- Witness for C3's amended statement at `p = 4`, `k = 2^31 + 1`. -/
theorem c3_witness :
    hyperLogLogPP.decodeHash 4 2147483649 =
      ((2147483649 / 2 ^ 7) % 2 ^ 4,
       if 2147483649 % 2 = 1 then (2147483649 / 2) % 2 ^ 6 + (25 - 4)
       else clz32 ((2147483649 * 2 ^ (25 - 4)) % 2 ^ 32) + 1) :=
  c3_decode_amended 4 2147483649 (by decide) (by decide)

/-- C4 fails on the code: at `p = 4`, `x = 0` (low 39 bits all zero) the
code computes `zeros = clz64(0) + 1 = 65` because the `| 1 << (pPrime-1)`
term of the claim is absent, giving encoding 131 instead of the claimed
81; and for the unflagged case (`x = 2 ^ 39`) the code returns
`(i' << 7) | (1 << 6) = 192`, not the claimed `i' << 1 = 2`. -/
theorem c4_counterexample :
    hyperLogLogPP.encodeHash 4 0 ≠ c4ClaimedEncode 4 0 ∧
    hyperLogLogPP.encodeHash 4 (2 ^ 39) ≠ c4ClaimedEncode 4 (2 ^ 39) := by
  decide

/-- C4 (amended): with `i' = x / 2^39` (the high 25 bits), `encodeHash`
returns the flagged `(i' << 7) | (zeros << 1) | 1` with
`zeros = clz64((x mod 2^39) << 25) + 1` — no `| 1 << (p'-1)` term and no
6-bit mask — exactly when the extra precision bits `(x / 2^39) mod
2^(25-p)` vanish, and otherwise the unflagged `(i' << 7) | (1 << 6)`. -/
theorem c4_encode_amended (p x : Nat) (hp4 : 4 ≤ p) (hp : p ≤ 18) (hx : x < 2 ^ 64) :
    hyperLogLogPP.encodeHash p x =
      if (x / 2 ^ 39) % 2 ^ (25 - p) = 0 then
        ((x / 2 ^ 39) <<< 7) ||| ((clz64 ((x % 2 ^ 39) <<< 25) + 1) <<< 1) ||| 1
      else ((x / 2 ^ 39) <<< 7) ||| (1 <<< 6) := by
  have hx2 : x < 18446744073709551616 := by norm_num at hx; exact hx
  have h1 : eb64 x 64 (64 - hyperLogLogPP.pPrime) = x / 2 ^ 39 := by
    rw [eb64_div_mod]
    norm_num [hyperLogLogPP.pPrime]
    omega
  have h2 : eb64 x (64 - p) (64 - hyperLogLogPP.pPrime) = (x / 2 ^ 39) % 2 ^ (25 - p) := by
    rw [eb64_div_mod]
    norm_num [hyperLogLogPP.pPrime]
    have e2 : 64 - p - 39 = 25 - p := by omega
    rw [e2]
  have h3 : eb64 x (64 - hyperLogLogPP.pPrime) 0 = x % 2 ^ 39 := by
    rw [eb64_div_mod]
    norm_num [hyperLogLogPP.pPrime]
  simp only [hyperLogLogPP.encodeHash]
  rw [h2, h1, h3, show hyperLogLogPP.pPrime = 25 from rfl]

/-- Witness for C4's amended statement at `p = 4`, `x = 0`. -/
theorem c4_witness :
    hyperLogLogPP.encodeHash 4 0 =
      if (0 / 2 ^ 39) % 2 ^ (25 - 4) = 0 then
        ((0 / 2 ^ 39) <<< 7) ||| ((clz64 ((0 % 2 ^ 39) <<< 25) + 1) <<< 1) ||| 1
      else ((0 / 2 ^ 39) <<< 7) ||| (1 <<< 6) :=
  c4_encode_amended 4 0 (by decide) (by decide) (by decide)

/-- C5 fails on the code: the merge trigger is `|tmp_set| · 72 > m`, not
`|tmp_set| · 100 > m` (at `p = 8`, adding a third key gives
`3·72 = 216 ≤ 256` — no merge — although `3·100 = 300 > 256`), and the
promotion trigger is `count · 6 > m`, not `count > m` (at `p = 4` a
merged list of 3 entries promotes because `3·6 = 18 > 16` although
`3 ≤ 16`). -/
theorem c5_counterexample :
    ¬ (((hyperLogLogPP.Add ⟨[], 8, 256, true, [192, 320], []⟩ (3 * 2 ^ 39)).2.1 = true) ↔
      (hyperLogLogPP.setAdd [192, 320]
        (hyperLogLogPP.encodeHash 8 (3 * 2 ^ 39))).length * 100 > 256) ∧
    ¬ (((hyperLogLogPP.Add ⟨[], 4, 16, true, [], [192, 320]⟩ (3 * 2 ^ 39)).2.2 = true) ↔
      (hyperLogLogPP.mergeList [192, 320]
        (hyperLogLogPP.sortKeys (hyperLogLogPP.setAdd []
          (hyperLogLogPP.encodeHash 4 (3 * 2 ^ 39))))).length > 16) := by
  decide

/-- C5 (amended): on the sparse add path, `merge` is called exactly when
`|tmp_set| · 72 > m` after the insertion, and `toNormal` is called
exactly when additionally the merged list satisfies `count · 6 > m`. -/
theorem c5_add_thresholds (h : hyperLogLogPP.State) (x : Nat) (hs : h.sparse = true) :
    ((hyperLogLogPP.Add h x).2.1 = true ↔
      (hyperLogLogPP.setAdd h.tmp_set (hyperLogLogPP.encodeHash h.p x)).length * 72 > h.m) ∧
    ((hyperLogLogPP.Add h x).2.2 = true ↔
      ((hyperLogLogPP.setAdd h.tmp_set (hyperLogLogPP.encodeHash h.p x)).length * 72 > h.m ∧
        (hyperLogLogPP.mergeList h.sparse_list
          (hyperLogLogPP.sortKeys (hyperLogLogPP.setAdd h.tmp_set
            (hyperLogLogPP.encodeHash h.p x)))).length * 6 > h.m)) := by
  simp only [hyperLogLogPP.Add, hyperLogLogPP.merge, hs, if_true]
  by_cases h1 :
      (hyperLogLogPP.setAdd h.tmp_set (hyperLogLogPP.encodeHash h.p x)).length * 72 > h.m
  · rw [if_pos h1]
    by_cases h2 :
        (hyperLogLogPP.mergeList h.sparse_list
          (hyperLogLogPP.sortKeys (hyperLogLogPP.setAdd h.tmp_set
            (hyperLogLogPP.encodeHash h.p x)))).length * 6 > h.m
    · rw [if_pos h2]
      simp [h1, h2]
    · rw [if_neg h2]
      simp [h1, h2]
  · rw [if_neg h1]
    simp [h1]

/-- Witness for C5's amended statement at a concrete sparse state. -/
theorem c5_witness :
    (hyperLogLogPP.Add ⟨[], 4, 16, true, [], [192, 320]⟩ (3 * 2 ^ 39)).2.1 = true := by
  rw [(c5_add_thresholds ⟨[], 4, 16, true, [], [192, 320]⟩ (3 * 2 ^ 39) rfl).1]
  decide

/-- C7 fails on the code: `merge` positions keys by their value masked
with `mPrime - 1` but overwrites by full-value comparison, so merging the
(reachable) encoded hashes of `2^39`, `2^56` and `2^56 + 2^39` one at a
time leaves `sparse_list = [16777408, 16777280]`: not strictly
increasing, and the distinct value 192 was overwritten rather than kept.
The claim (the spec's intent: a strictly increasing list with only exact
duplicates collapsed) is right and the code is wrong. -/
theorem c7_merge_not_sorted :
    hyperLogLogPP.encodeHash 4 (2 ^ 39) = 192 ∧
    hyperLogLogPP.encodeHash 4 (2 ^ 56) = 16777280 ∧
    hyperLogLogPP.encodeHash 4 (2 ^ 56 + 2 ^ 39) = 16777408 ∧
    (hyperLogLogPP.merge ⟨[], 4, 16, true, [16777408],
        (hyperLogLogPP.merge ⟨[], 4, 16, true, [16777280],
          (hyperLogLogPP.merge ⟨[], 4, 16, true, [192], []⟩).sparse_list⟩).sparse_list⟩
      ).sparse_list = [16777408, 16777280] ∧
    strictlyIncr [16777408, 16777280] = false := by
  decide

/-- The Go loop in `estimateBias` stops at the first index whose table
entry is not below `est`. -/
lemma firstGe_eq {α : Type} [LinearOrderedField α] {est : α} :
    ∀ {l : List α} {i : Nat}, i < l.length →
      (∀ j, j < i → l.getD j 0 < est) → ¬ (l.getD i 0 < est) →
      firstGe est l = i := by
  intro l
  induction l with
  | nil => intro i hi; simp at hi
  | cons a t ih =>
    intro i hi hb ha
    rw [firstGe]
    by_cases hlt : a < est
    · rw [if_pos hlt]
      match i with
      | 0 => exact absurd hlt (by simpa using ha)
      | i' + 1 =>
        have : firstGe est t = i' := by
          apply ih (by simpa using hi)
          · intro j hj
            have := hb (j + 1) (by omega)
            simpa using this
          · simpa using ha
        omega
    · rw [if_neg hlt]
      match i with
      | 0 => rfl
      | i' + 1 =>
        have := hb 0 (by omega)
        simp at this
        exact absurd this hlt

/-- C6 fails as stated for the `hyperLogLogPP.estimateBias` variant: at
tables `e = [1,2]`, `b = [5,7]` and `est = 1/2` (below the first
breakpoint) it returns `e[0] - b[0] = -4`, not the claimed `b[0] = 5`;
and at `est = 5/4` it returns the reversed interpolation
`b[0]·c + b[1]·(1-c) = 13/2`, not the claimed
`b[0]·(1-c) + b[1]·c = 11/2`. -/
theorem c6_counterexample :
    (hyperLogLogPP.estimateBias [[(1 : ℚ), 2]] [[5, 7]] 4 (1 / 2) = -4 ∧
      (-4 : ℚ) ≠ 5) ∧
    (hyperLogLogPP.estimateBias [[(1 : ℚ), 2]] [[5, 7]] 4 (5 / 4) = 13 / 2 ∧
      (13 / 2 : ℚ) ≠ 5 * (1 - (5 / 4 - 1) / (2 - 1)) + 7 * ((5 / 4 - 1) / (2 - 1))) := by
  refine ⟨⟨?_, by norm_num⟩, ⟨?_, by norm_num⟩⟩
  · norm_num [hyperLogLogPP.estimateBias, List.getD]
  · norm_num [hyperLogLogPP.estimateBias, firstGe, List.getD]

/-- C6 (amended): the claimed behaviour holds of the `HyperLogLog64`
variant of `estimateBias` (the one the specification adopts): below the
first breakpoint it returns `bias[0]`; above the last it returns
`bias[last]`; and when `est` lies properly inside the table's range it
interpolates `b[i-1]·(1-c) + b[i]·c` at the first index `i` with
`e[i] ≥ est`, `c = (est - e[i-1]) / (e[i] - e[i-1])`.  The
`hyperLogLogPP` variant does not satisfy this. -/
theorem c6_estimateBias_cases {α : Type} [LinearOrderedField α]
    (e b : List α) (est : α) :
    (est < e.getD 0 0 → HyperLogLog64.estimateBias [e] [b] 4 est = b.getD 0 0) ∧
    (e.getD 0 0 ≤ est → e.getD (e.length - 1) 0 < est →
      HyperLogLog64.estimateBias [e] [b] 4 est = b.getD (b.length - 1) 0) ∧
    (∀ i, i < e.length → (∀ j, j < i → e.getD j 0 < est) → est ≤ e.getD i 0 →
      e.getD 0 0 < est → est ≤ e.getD (e.length - 1) 0 →
      HyperLogLog64.estimateBias [e] [b] 4 est =
        b.getD (i - 1) 0 *
            (1 - (est - e.getD (i - 1) 0) / (e.getD i 0 - e.getD (i - 1) 0)) +
          b.getD i 0 * ((est - e.getD (i - 1) 0) / (e.getD i 0 - e.getD (i - 1) 0))) := by
  refine ⟨?_, ?_, ?_⟩
  · intro h0
    simp only [HyperLogLog64.estimateBias, show (4 : Nat) - 4 = 0 from rfl,
      List.getD_cons_zero]
    rw [if_pos h0]
  · intro h0 hlast
    simp only [HyperLogLog64.estimateBias, show (4 : Nat) - 4 = 0 from rfl,
      List.getD_cons_zero]
    rw [if_neg (not_lt.mpr h0), if_pos hlast]
  · intro i hi hb ha h0 hlast
    simp only [HyperLogLog64.estimateBias, show (4 : Nat) - 4 = 0 from rfl,
      List.getD_cons_zero]
    rw [if_neg (not_lt.mpr (le_of_lt h0)), if_neg (not_lt.mpr hlast)]
    rw [firstGe_eq hi hb (not_lt.mpr ha)]

/-- Witness for C6's amended statement: all three cases evaluated at the
concrete rational tables `e = [1,2,4]`, `b = [10,20,40]`. -/
theorem c6_witness :
    HyperLogLog64.estimateBias [[(1 : ℚ), 2, 4]] [[10, 20, 40]] 4 0 = 10 ∧
    HyperLogLog64.estimateBias [[(1 : ℚ), 2, 4]] [[10, 20, 40]] 4 5 = 40 ∧
    HyperLogLog64.estimateBias [[(1 : ℚ), 2, 4]] [[10, 20, 40]] 4 3 = 30 := by
  refine ⟨?_, ?_, ?_⟩
  · have := (c6_estimateBias_cases [(1 : ℚ), 2, 4] [10, 20, 40] 0).1 (by norm_num [List.getD])
    rw [this]
    norm_num [List.getD]
  · have := (c6_estimateBias_cases [(1 : ℚ), 2, 4] [10, 20, 40] 5).2.1
      (by norm_num [List.getD]) (by norm_num [List.getD])
    rw [this]
    norm_num [List.getD]
  · have := (c6_estimateBias_cases [(1 : ℚ), 2, 4] [10, 20, 40] 3).2.2 2
      (by norm_num) (by decide) (by norm_num [List.getD])
      (by norm_num [List.getD]) (by norm_num [List.getD])
    rw [this]
    norm_num [List.getD]

/-- C2 fails as stated for the `src/hyperloglog64.go` variant of
`Count`: on the all-ones register state at `p = 4` (raw estimate
`21.536`) it returns `⌊est⌋ = 21` — it never subtracts the interpolated
bias — while the claimed steps, for any bias table interpolating to 5
there, give `⌊est - bias⌋ = 16`. -/
theorem c2_counterexample :
    HyperLogLog64.CountLegacy ⟨List.replicate 16 1, 16, 4⟩ = 21 ∧
    specCountC2 [[1, 2]] [[5, 5]] ⟨List.replicate 16 1, 16, 4⟩ = 16 ∧
    (21 : ℤ) ≠ 16 := by
  have hest : calculateEstimate (List.replicate 16 1) = 21.536 := by
    unfold calculateEstimate alphaM
    rw [List.map_replicate, List.sum_replicate]
    norm_num [nsmul_eq_mul]
  refine ⟨?_, ?_, by norm_num⟩
  · simp only [HyperLogLog64.CountLegacy]
    rw [hest]
    have h1 : (21.536 : ℝ) ≤ ((16 : Nat) : ℝ) * 2.5 := by norm_num
    rw [if_pos h1]
    have hv : ¬ (countZeros (List.replicate 16 1) ≠ 0) := by decide
    rw [if_neg hv]
    norm_num [Int.floor_eq_iff]
  · simp only [specCountC2]
    rw [hest]
    have hb : HyperLogLog64.estimateBias [[(1 : ℝ), 2]] [[5, 5]] 4 21.536 = 5 := by
      norm_num [HyperLogLog64.estimateBias, List.getD]
    have h5 : (21.536 : ℝ) ≤ 5 * ((16 : Nat) : ℝ) := by norm_num
    rw [if_pos h5, hb]
    have hand : ¬ (0 < countZeros (List.replicate 16 1) ∧
        linearCounting 16 (countZeros (List.replicate 16 1)) ≤
          ((threshold.getD (4 - 4) 0 : Nat) : ℝ)) := by
      intro hc
      exact absurd hc.1 (by decide)
    rw [if_neg hand]
    norm_num [Int.floor_eq_iff]

/-- C2 (amended): the `src/unnamed/part_000` version of
`HyperLogLog64.Count` — the one the test suite builds — follows exactly
the claimed steps: raw estimate, bias subtraction when `est ≤ 5·m`, then
the linear-counting return gated on `v > 0` and `lc ≤ threshold[p-4]`,
else the floor of the corrected estimate.  The older
`src/hyperloglog64.go` variant instead uses the classic HLL scheme. -/
theorem c2_count_steps (rawE biasD : List (List ℝ)) (h : HyperLogLog64.State) :
    HyperLogLog64.Count rawE biasD h = specCountC2 rawE biasD h := by
  simp only [HyperLogLog64.Count, specCountC2]
  have hm : (h.m : ℝ) * 5.0 = 5 * (h.m : ℝ) := by ring
  rw [hm]
  by_cases hv : countZeros h.reg ≠ 0
  · by_cases hlc : linearCounting h.m (countZeros h.reg) ≤
        ((threshold.getD (h.p - 4) 0 : Nat) : ℝ)
    · have hand : 0 < countZeros h.reg ∧ linearCounting h.m (countZeros h.reg) ≤
          ((threshold.getD (h.p - 4) 0 : Nat) : ℝ) := ⟨Nat.pos_of_ne_zero hv, hlc⟩
      rw [if_pos hv, if_pos hlc, if_pos hand]
    · have hand : ¬ (0 < countZeros h.reg ∧ linearCounting h.m (countZeros h.reg) ≤
          ((threshold.getD (h.p - 4) 0 : Nat) : ℝ)) := fun hc => hlc hc.2
      rw [if_pos hv, if_neg hlc, if_neg hand]
  · have hand : ¬ (0 < countZeros h.reg ∧ linearCounting h.m (countZeros h.reg) ≤
        ((threshold.getD (h.p - 4) 0 : Nat) : ℝ)) :=
      fun hc => hv (Nat.pos_iff_ne_zero.mp hc.1)
    rw [if_neg hv, if_neg hand]
